import Mathlib

/-!
Shallow embedding of the lexical review-scoring engine of `src/main.py`
(Jampierre/conversational-agents): text normalizer, adjective-lexicon
expansion, sentence segmentation and matching, nearest-adjective sentence
scorer, dimension analyzer, and score aggregator.

Strings are modelled as `List Char`.  Python's `str.lower` and
`unicodedata` (NFD decomposition, combining-mark category `Mn`) are
modelled by explicit character tables covering the alphabet that the
program's Portuguese lexicon and corpus use (ASCII letters plus the
accented Latin letters and their combining marks); characters outside the
tables are fixed points, exactly as they are for `lower`/NFD on the
unaccented part of that alphabet.
-/

abbrev Str := List Char

/-- Python `str.lower`, restricted to the program's alphabet: uppercase
ASCII letters and uppercase accented Latin letters map to their lowercase
forms; every other character is unchanged. -/
def lowerTable : List (Char × Char) :=
  [('A', 'a'), ('B', 'b'), ('C', 'c'), ('D', 'd'), ('E', 'e'), ('F', 'f'),
   ('G', 'g'), ('H', 'h'), ('I', 'i'), ('J', 'j'), ('K', 'k'), ('L', 'l'),
   ('M', 'm'), ('N', 'n'), ('O', 'o'), ('P', 'p'), ('Q', 'q'), ('R', 'r'),
   ('S', 's'), ('T', 't'), ('U', 'u'), ('V', 'v'), ('W', 'w'), ('X', 'x'),
   ('Y', 'y'), ('Z', 'z'),
   ('À', 'à'), ('Á', 'á'), ('Â', 'â'), ('Ã', 'ã'), ('Ç', 'ç'),
   ('É', 'é'), ('Ê', 'ê'), ('Í', 'í'), ('Ó', 'ó'), ('Ô', 'ô'),
   ('Õ', 'õ'), ('Ú', 'ú')]

/-- Canonical (NFD) decomposition of the lowercase accented letters reached
after lowering: each decomposes into its base letter followed by a
combining mark.  Characters outside the table decompose to themselves. -/
def nfdTable : List (Char × List Char) :=
  [('à', ['a', '̀']), ('á', ['a', '́']), ('â', ['a', '̂']),
   ('ã', ['a', '̃']), ('ç', ['c', '̧']), ('é', ['e', '́']),
   ('ê', ['e', '̂']), ('í', ['i', '́']), ('ó', ['o', '́']),
   ('ô', ['o', '̂']), ('õ', ['o', '̃']), ('ú', ['u', '́'])]

/-- Unicode combining marks (category `Mn`) occurring in the decompositions. -/
def mnChars : List Char := ['̀', '́', '̂', '̃', '̧']

/-- Per-character lowercase map (table lookup, identity off the table). -/
def pyLower (c : Char) : Char :=
  match lowerTable.find? (fun p => p.1 == c) with
  | some p => p.2
  | none => c

/-- Per-character NFD decomposition (table lookup, `[c]` off the table). -/
def nfdChar (c : Char) : List Char :=
  match nfdTable.find? (fun p => p.1 == c) with
  | some p => p.2
  | none => [c]

/-- Test for Unicode category `Mn` (non-spacing combining mark). -/
def isMn (c : Char) : Bool := mnChars.contains c

/-- Embeds `_normalize` of `src/main.py`: lowercase the string, decompose it
canonically (NFD), and drop every combining mark. -/
def _normalize (s : Str) : Str :=
  ((s.map pyLower).flatMap nfdChar).filter (fun c => !isMn c)

/-- Action of `_normalize` on one input character. -/
def normChar (c : Char) : List Char :=
  (nfdChar (pyLower c)).filter (fun c => !isMn c)

/-- Characters that `_normalize` leaves alone: lowercase-fixed, NFD-fixed,
and not a combining mark. -/
def normFixed (d : Char) : Bool :=
  pyLower d == d && nfdChar d == [d] && !isMn d

lemma normalize_eq_flatMap (s : Str) : _normalize s = s.flatMap normChar := by
  induction s with
  | nil => rfl
  | cons c s ih =>
    simp only [_normalize, List.map_cons, List.flatMap_cons, List.filter_append]
    simp only [_normalize] at ih
    rw [ih]
    rfl

lemma lowerTable_outputs_fixed :
    lowerTable.all (fun p => (nfdChar p.2).all (fun d => isMn d || normFixed d)) = true := by
  decide

lemma nfdTable_outputs_fixed :
    nfdTable.all (fun q => q.2.all (fun d => isMn d || normFixed d)) = true := by
  decide

lemma normChar_good (c : Char) : ∀ d ∈ normChar c, normFixed d = true := by
  intro d hd
  unfold normChar at hd
  rw [List.mem_filter] at hd
  obtain ⟨hdn, hmn⟩ := hd
  unfold pyLower at hdn
  cases hfind : lowerTable.find? (fun p => p.1 == c) with
  | some p =>
    rw [hfind] at hdn
    have hp : p ∈ lowerTable := List.mem_of_find?_eq_some hfind
    have h1 := List.all_eq_true.mp lowerTable_outputs_fixed p hp
    have h2 := List.all_eq_true.mp h1 d hdn
    rw [Bool.or_eq_true] at h2
    rcases h2 with h2 | h2
    · rw [h2] at hmn; simp at hmn
    · exact h2
  | none =>
    rw [hfind] at hdn
    unfold nfdChar at hdn
    cases hfind2 : nfdTable.find? (fun p => p.1 == c) with
    | some q =>
      rw [hfind2] at hdn
      have hq : q ∈ nfdTable := List.mem_of_find?_eq_some hfind2
      have h1 := List.all_eq_true.mp nfdTable_outputs_fixed q hq
      have h2 := List.all_eq_true.mp h1 d hdn
      rw [Bool.or_eq_true] at h2
      rcases h2 with h2 | h2
      · rw [h2] at hmn; simp at hmn
      · exact h2
    | none =>
      rw [hfind2] at hdn
      simp only [List.mem_singleton] at hdn
      subst hdn
      unfold normFixed pyLower nfdChar
      rw [hfind, hfind2]
      simp only [beq_self_eq_true, Bool.true_and]
      simpa using hmn

lemma normChar_fix (c d : Char) (hd : d ∈ normChar c) : normChar d = [d] := by
  have h := normChar_good c d hd
  simp only [normFixed, Bool.and_eq_true, beq_iff_eq, Bool.not_eq_true'] at h
  obtain ⟨⟨h1, h2⟩, h3⟩ := h
  simp [normChar, h1, h2, h3]

lemma flatMap_self_of_fix (l : List Char) (h : ∀ d ∈ l, normChar d = [d]) :
    l.flatMap normChar = l := by
  induction l with
  | nil => rfl
  | cons c l ih =>
    rw [List.flatMap_cons, h c (List.mem_cons_self c l),
      ih (fun d hd => h d (List.mem_cons_of_mem c hd))]
    rfl

/-- C5: the text normalizer is idempotent — for every string `x`,
`_normalize (_normalize x) = _normalize x`, where `_normalize` is
lowercasing followed by NFD decomposition and removal of combining marks. -/
theorem normalize_idempotent (s : Str) :
    _normalize (_normalize s) = _normalize s := by
  rw [normalize_eq_flatMap s, normalize_eq_flatMap]
  induction s with
  | nil => rfl
  | cons c s ih =>
    rw [List.flatMap_cons, List.flatMap_append, ih,
      flatMap_self_of_fix (normChar c) (normChar_fix c)]

/-- Python `hay.find(needle, start)`: the least index `j ≥ start` at which
`needle` occurs in `hay` (`none` models Python's `-1`).  As in Python, the
empty needle is found at every index up to `hay.length`. -/
def pyFind (hay needle : Str) (start : Nat) : Option Nat :=
  (List.range (hay.length + 1)).find?
    (fun j => decide (start ≤ j) && needle.isPrefixOf (hay.drop j))

/-- Python's `needle in hay` substring test. -/
def isSubstr (needle hay : Str) : Bool := (pyFind hay needle 0).isSome

/-- Loop body of the inner `_positions` helper of `_score_for_sentence`:
starting at `i`, repeatedly find the needle, record the midpoint offset
`j + len / 2`, and resume the scan at `j + max 1 len`.  The fuel argument
bounds the iteration count; `hay.length + 2` frames always suffice because
each iteration advances the scan index by at least one. -/
def positionsAux (hay needle : Str) : Nat → Nat → List Nat
  | 0, _ => []
  | fuel + 1, i =>
    match pyFind hay needle i with
    | none => []
    | some j => (j + needle.length / 2) :: positionsAux hay needle fuel (j + max 1 needle.length)

/-- Embeds `_positions` of `_score_for_sentence` in `src/main.py`. -/
def _positions (hay needle : Str) : List Nat :=
  positionsAux hay needle (hay.length + 2) 0

lemma pyFind_start_le (hay needle : Str) (start j : Nat)
    (h : pyFind hay needle start = some j) : start ≤ j := by
  have hp := List.find?_some h
  rw [Bool.and_eq_true, decide_eq_true_eq] at hp
  exact hp.1

lemma positionsAux_lower_bound (hay needle : Str) :
    ∀ fuel i x, x ∈ positionsAux hay needle fuel i → i + needle.length / 2 ≤ x := by
  intro fuel
  induction fuel with
  | zero => intro i x hx; simp [positionsAux] at hx
  | succ fuel ih =>
    intro i x hx
    unfold positionsAux at hx
    cases hfind : pyFind hay needle i with
    | none => rw [hfind] at hx; simp at hx
    | some j =>
      rw [hfind] at hx
      have hij : i ≤ j := pyFind_start_le hay needle i j hfind
      rcases List.mem_cons.mp hx with hx | hx
      · omega
      · have := ih (j + max 1 needle.length) x hx
        omega

lemma positionsAux_chain (hay needle : Str) :
    ∀ fuel i, List.Chain' (fun a b => a + max 1 needle.length ≤ b)
      (positionsAux hay needle fuel i) := by
  intro fuel
  induction fuel with
  | zero => intro i; simp [positionsAux]
  | succ fuel ih =>
    intro i
    unfold positionsAux
    cases hfind : pyFind hay needle i with
    | none => simp
    | some j =>
      rw [List.chain'_cons']
      refine ⟨?_, ih (j + max 1 needle.length)⟩
      intro y hy
      have hym : y ∈ positionsAux hay needle fuel (j + max 1 needle.length) := by
        cases hpos : positionsAux hay needle fuel (j + max 1 needle.length) with
        | nil => rw [hpos] at hy; simp at hy
        | cons a l =>
          rw [hpos] at hy
          simp only [List.head?_cons, Option.mem_some_iff] at hy
          rw [← hy]
          exact List.mem_cons_self a l
      have := positionsAux_lower_bound hay needle fuel (j + max 1 needle.length) y hym
      omega

/-- C10: occurrence enumeration is non-overlapping — after a match at index
`j` the scan resumes at `j + needle.length`, so consecutive recorded
midpoints are at least `max 1 needle.length` apart; in particular the
needle `"aa"` in `"aaaa"` contributes the two midpoints `[1, 3]`, not
three. -/
theorem positions_nonoverlapping :
    (∀ hay needle : Str, List.Chain' (fun a b => a + max 1 needle.length ≤ b)
      (_positions hay needle)) ∧
    _positions "aaaa".data "aa".data = [1, 3] := by
  constructor
  · intro hay needle
    exact positionsAux_chain hay needle (hay.length + 2) 0
  · decide

/-- First-seen-order deduplication, as done with the `seen` set and `uniq`
list in `_build_adj_index` (and implicitly by the Python `set` used in
`_expand_adj_variants`, whose iteration order no caller depends on). -/
def pyDedup {α : Type} [DecidableEq α] (l : List α) : List α :=
  l.foldl (fun acc x => if x ∈ acc then acc else acc ++ [x]) []

lemma pyDedup_foldl_mem {α : Type} [DecidableEq α] (x : α) :
    ∀ (l acc : List α),
      (x ∈ l.foldl (fun acc x => if x ∈ acc then acc else acc ++ [x]) acc ↔
        x ∈ acc ∨ x ∈ l) := by
  intro l
  induction l with
  | nil => intro acc; simp
  | cons y l ih =>
    intro acc
    rw [List.foldl_cons, ih]
    by_cases hy : y ∈ acc
    · simp only [if_pos hy]
      constructor
      · rintro (h | h)
        · exact Or.inl h
        · exact Or.inr (List.mem_cons_of_mem y h)
      · rintro (h | h)
        · exact Or.inl h
        · rcases List.mem_cons.mp h with rfl | h
          · exact Or.inl hy
          · exact Or.inr h
    · simp only [if_neg hy, List.mem_append, List.mem_singleton, List.mem_cons]
      tauto

lemma mem_pyDedup {α : Type} [DecidableEq α] (x : α) (l : List α) :
    x ∈ pyDedup l ↔ x ∈ l := by
  unfold pyDedup
  rw [pyDedup_foldl_mem]
  simp

/-- The fixed five-level adjective scale `ADJ_SCALE` of `src/main.py`,
a mapping from the integer score to its three base adjectives. -/
def ADJ_SCALE (score : Int) : List Str :=
  if score = 1 then ["horrivel".data, "nojento".data, "terrivel".data]
  else if score = 2 then ["ruim".data, "desagradavel".data, "ofensivo".data]
  else if score = 3 then ["mediano".data, "sem graca".data, "irrelevante".data]
  else if score = 4 then ["bom".data, "agradavel".data, "satisfatorio".data]
  else if score = 5 then ["incrivel".data, "impressionante".data, "surpreendente".data]
  else []

/-- Python `a.endswith(suf)`. -/
def endsWith (a suf : Str) : Bool := suf.isSuffixOf a

/-- Python `a[:-n]` for `n ≥ 1` (all but the last `n` characters). -/
def dropSuffix (a : Str) (n : Nat) : Str := a.take (a.length - n)

/-- Embeds `_expand_adj_variants` of `src/main.py`: the two irregular
full-word cases short-circuit; otherwise each ending rule is checked
independently and accumulates variants.  The Python code collects the
variants in a `set`; since every use is order-insensitive, the set is
modelled as the insertion-ordered list deduplicated first-seen. -/
def _expand_adj_variants (a : Str) : List Str :=
  if a = "bom".data then pyDedup ([a] ++ ["boa".data, "bons".data, "boas".data])
  else if a = "ruim".data then pyDedup ([a] ++ ["ruins".data])
  else
    pyDedup ([a]
      ++ (if endsWith a "o".data then
            [dropSuffix a 1 ++ "a".data, dropSuffix a 1 ++ "os".data,
             dropSuffix a 1 ++ "as".data] else [])
      ++ (if endsWith a "ivel".data then [dropSuffix a 4 ++ "iveis".data] else [])
      ++ (if endsWith a "vel".data then [dropSuffix a 3 ++ "veis".data] else [])
      ++ (if endsWith a "el".data then [dropSuffix a 2 ++ "eis".data] else [])
      ++ (if endsWith a "ente".data || endsWith a "ante".data then [a ++ "s".data] else [])
      ++ (if endsWith a "ivo".data then
            [dropSuffix a 3 ++ "iva".data, dropSuffix a 3 ++ "ivos".data,
             dropSuffix a 3 ++ "ivas".data] else []))

/-- Embeds `_build_adj_index` of `src/main.py`: per score, expand every base
adjective, concatenate, and deduplicate preserving first-seen order. -/
def _build_adj_index (scale : Int → List Str) (score : Int) : List Str :=
  pyDedup ((scale score).flatMap _expand_adj_variants)

/-- The expanded adjective index `ADJ_IDX` built at load time. -/
def ADJ_IDX (score : Int) : List Str := _build_adj_index ADJ_SCALE score

/-- The fixed food keyword list `FOOD_KW` of `src/main.py`. -/
def FOOD_KW : List Str :=
  ["comida".data, "pastel".data, "sanduiche".data, "sanduiches".data,
   "frango".data, "hamburguer".data, "hamburgueres".data, "cafe".data,
   "doces".data, "donuts".data, "pratos".data, "saladas".data,
   "sopas".data, "cookie".data, "cookies".data]

/-- The fixed service keyword list `SERVICE_KW` of `src/main.py`. -/
def SERVICE_KW : List Str :=
  ["atendimento".data, "funcionarios".data, "garcons".data, "servico".data,
   "equipe".data, "baristas".data, "garcom".data, "espera".data]

/-- C8: adjective expansion is lossless — for every word, the variant list
returned by `_expand_adj_variants` contains the original word, and hence in
the built index every base adjective of a score level appears in that
level's expansion list. -/
theorem expansion_lossless :
    (∀ a : Str, a ∈ _expand_adj_variants a) ∧
    (∀ score : Int, ∀ a ∈ ADJ_SCALE score, a ∈ ADJ_IDX score) := by
  have hself : ∀ a : Str, a ∈ _expand_adj_variants a := by
    intro a
    unfold _expand_adj_variants
    split
    · rw [mem_pyDedup]; exact List.mem_cons_self _ _
    · split
      · rw [mem_pyDedup]; exact List.mem_cons_self _ _
      · rw [mem_pyDedup]
        simp
  refine ⟨hself, ?_⟩
  intro score a ha
  unfold ADJ_IDX _build_adj_index
  rw [mem_pyDedup, List.mem_flatMap]
  exact ⟨a, ha, hself a⟩

/-- Witness for C8 at the concrete base adjective `"bom"` of score level 4. -/
theorem expansion_lossless_witness :
    "bom".data ∈ _expand_adj_variants "bom".data ∧
    "bom".data ∈ ADJ_IDX 4 := by
  exact ⟨expansion_lossless.1 "bom".data,
    expansion_lossless.2 4 "bom".data (by decide)⟩

/-- C9: the two fixed keyword lists are disjoint as sets of strings — no
element of `FOOD_KW` occurs in `SERVICE_KW`. -/
theorem keyword_sets_disjoint :
    FOOD_KW.all (fun k => !(SERVICE_KW.contains k)) = true := by
  decide

/-- Python tuple comparison `(dist, -desired) < best` used in the scorer. -/
def tupLt (a b : Nat × Int) : Bool :=
  decide (a.1 < b.1) || (a.1 == b.1 && decide (a.2 < b.2))

/-- Python `min(abs(apos - tpos) for tpos in target_pos)` over the nonempty
target position list `tp0 :: tps`. -/
def minDistTo (apos tp0 : Nat) (tps : List Nat) : Nat :=
  tps.foldl (fun m t => min m ((apos : Int) - (t : Int)).natAbs)
    ((apos : Int) - (tp0 : Int)).natAbs

/-- The candidate space scanned by `_score_for_sentence`: for every score
level 5 down to 1, every expanded adjective surface form of that level, and
every midpoint occurrence of that form, the pair of its distance to the
nearest target position and its score level, in iteration order. -/
def candList (s : Str) (tp0 : Nat) (tps : List Nat) : List (Nat × Int) :=
  ([5, 4, 3, 2, 1] : List Int).flatMap (fun desired =>
    (ADJ_IDX desired).flatMap (fun adj =>
      (_positions s adj).map (fun apos => (minDistTo apos tp0 tps, desired))))

/-- One step of the best-candidate loop: keep the incumbent unless the new
candidate's key `(dist, -desired)` is strictly smaller in tuple order. -/
def scoreStep (acc : Option (Nat × Int) × Option Int) (cd : Nat × Int) :
    Option (Nat × Int) × Option Int :=
  match acc.1 with
  | none => (some (cd.1, -cd.2), some cd.2)
  | some b => if tupLt (cd.1, -cd.2) b then (some (cd.1, -cd.2), some cd.2) else acc

/-- The full best-candidate loop over the candidate space, tracking
`best : Option (dist, -desired)` and `best_score : Option desired`. -/
def scoreFold (cands : List (Nat × Int)) : Option (Nat × Int) × Option Int :=
  cands.foldl scoreStep (none, none)

/-- Embeds `_score_for_sentence` of `src/main.py`: neutral 3 when no target
term occurs in the normalized sentence (or, defensively, when no target
position exists), otherwise the score of the best candidate — smallest
distance, ties resolved toward the higher score by the `(dist, -desired)`
key — and 3 again if no adjective form occurs.  The Python code binds the
normalized sentence once; being pure, it is inlined here. -/
def _score_for_sentence (sentence : Str) (target_terms : List Str) : Int :=
  if !(target_terms.any (fun t => isSubstr t (_normalize sentence))) then 3
  else
    match target_terms.flatMap (fun t => _positions (_normalize sentence) t) with
    | [] => 3
    | tp0 :: tps =>
      match (scoreFold (candList (_normalize sentence) tp0 tps)).2 with
      | none => 3
      | some sc => sc

/-- Invariant of the best-candidate loop: either nothing has been seen, or
the tracked best is a seen candidate of minimal distance whose score is
maximal among the minimal-distance candidates seen. -/
def foldGood (l : List (Nat × Int)) (res : Option (Nat × Int) × Option Int) : Prop :=
  (res = (none, none) ∧ l = []) ∨
  ∃ d r, res = (some (d, -r), some r) ∧ (d, r) ∈ l ∧ (∀ c ∈ l, d ≤ c.1) ∧
    (∀ c ∈ l, c.1 = d → c.2 ≤ r)

lemma tupLt_iff (a b : Nat × Int) :
    tupLt a b = true ↔ (a.1 < b.1 ∨ (a.1 = b.1 ∧ a.2 < b.2)) := by
  simp [tupLt, Bool.or_eq_true, Bool.and_eq_true, decide_eq_true_eq, beq_iff_eq]

lemma foldGood_step (seen : List (Nat × Int)) (acc : Option (Nat × Int) × Option Int)
    (cd : Nat × Int) (h : foldGood seen acc) : foldGood (seen ++ [cd]) (scoreStep acc cd) := by
  obtain ⟨cdd, cdr⟩ := cd
  rcases h with ⟨hacc, hseen⟩ | ⟨d, r, hacc, hmem, hmin, htie⟩
  · subst hseen
    rw [hacc]
    right
    refine ⟨cdd, cdr, rfl, by simp, by simp, by simp⟩
  · rw [hacc]
    by_cases hlt : tupLt ((cdd, cdr).1, -(cdd, cdr).2) (d, -r) = true
    · rw [tupLt_iff] at hlt
      simp only at hlt
      right
      refine ⟨cdd, cdr, ?_, ?_, ?_, ?_⟩
      · simp only [scoreStep, hacc]
        rw [if_pos]
        rw [tupLt_iff]
        simpa using hlt
      · simp
      · intro c hc
        rcases List.mem_append.mp hc with hc | hc
        · have := hmin c hc
          rcases hlt with hlt | ⟨hlt, _⟩ <;> omega
        · simp only [List.mem_singleton] at hc
          subst hc
          exact le_refl _
      · intro c hc hcd
        rcases List.mem_append.mp hc with hc | hc
        · rcases hlt with hlt | ⟨hlt1, hlt2⟩
          · have := hmin c hc
            omega
          · have := htie c hc (by omega)
            omega
        · simp only [List.mem_singleton] at hc
          subst hc
          exact le_refl _
    · rw [tupLt_iff] at hlt
      push_neg at hlt
      simp only at hlt
      right
      refine ⟨d, r, ?_, List.mem_append_left _ hmem, ?_, ?_⟩
      · simp only [scoreStep, hacc]
        rw [if_neg]
        rw [tupLt_iff]
        simpa using hlt
      · intro c hc
        rcases List.mem_append.mp hc with hc | hc
        · exact hmin c hc
        · simp only [List.mem_singleton] at hc
          subst hc
          simp only
          omega
      · intro c hc hcd
        rcases List.mem_append.mp hc with hc | hc
        · exact htie c hc hcd
        · simp only [List.mem_singleton] at hc
          subst hc
          simp only at hcd ⊢
          have := hlt.2
          omega

lemma foldGood_foldl :
    ∀ (l seen : List (Nat × Int)) (acc : Option (Nat × Int) × Option Int),
      foldGood seen acc → foldGood (seen ++ l) (l.foldl scoreStep acc) := by
  intro l
  induction l with
  | nil => intro seen acc h; simpa using h
  | cons cd l ih =>
    intro seen acc h
    rw [List.foldl_cons]
    have := ih (seen ++ [cd]) (scoreStep acc cd) (foldGood_step seen acc cd h)
    simpa [List.append_assoc] using this

lemma scoreFold_good (cands : List (Nat × Int)) : foldGood cands (scoreFold cands) := by
  have h0 : foldGood [] ((none, none) : Option (Nat × Int) × Option Int) :=
    Or.inl ⟨rfl, rfl⟩
  simpa using foldGood_foldl cands [] (none, none) h0

/-- C2: the sentence scorer's result is determined by minimum distance over
the entire candidate space (all 5 levels, all expanded forms, all
occurrences), with ties between equidistant forms of different levels
broken toward the larger score level — not by a greedy first-found scan:
whenever the candidate space is nonempty, the returned score belongs to a
candidate of globally minimal distance, and every candidate at that minimal
distance has score at most the returned one. -/
theorem score_min_distance_tie_to_higher (sentence : Str) (targets : List Str)
    (tp0 : Nat) (tps : List Nat)
    (h1 : targets.any (fun t => isSubstr t (_normalize sentence)) = true)
    (h2 : targets.flatMap (fun t => _positions (_normalize sentence) t) = tp0 :: tps)
    (h3 : candList (_normalize sentence) tp0 tps ≠ []) :
    ∃ d, (d, _score_for_sentence sentence targets) ∈ candList (_normalize sentence) tp0 tps ∧
      (∀ c ∈ candList (_normalize sentence) tp0 tps, d ≤ c.1) ∧
      (∀ c ∈ candList (_normalize sentence) tp0 tps,
        c.1 = d → c.2 ≤ _score_for_sentence sentence targets) := by
  rcases scoreFold_good (candList (_normalize sentence) tp0 tps) with
    ⟨hres, hnil⟩ | ⟨d, r, hres, hmem, hmin, htie⟩
  · exact absurd hnil h3
  · have hscore : _score_for_sentence sentence targets = r := by
      unfold _score_for_sentence
      rw [h1, h2]
      simp only [Bool.not_true, Bool.false_eq_true, if_false]
      rw [hres]
    rw [hscore]
    exact ⟨d, hmem, hmin, htie⟩

/-- Witness for C2: in the sentence `"mediano comida incrivel"` the level-3
form `"mediano"` and the level-5 form `"incrivel"` are both at distance 8
from the single food-keyword midpoint 11, and the tie resolves to score 5. -/
theorem score_min_distance_tie_witness :
    FOOD_KW.any (fun t => isSubstr t (_normalize "mediano comida incrivel".data)) = true ∧
    FOOD_KW.flatMap (fun t => _positions (_normalize "mediano comida incrivel".data) t) =
      [11] ∧
    candList (_normalize "mediano comida incrivel".data) 11 [] = [(8, 5), (8, 3)] ∧
    _score_for_sentence "mediano comida incrivel".data FOOD_KW = 5 ∧
    ∃ d, (d, _score_for_sentence "mediano comida incrivel".data FOOD_KW) ∈
        candList (_normalize "mediano comida incrivel".data) 11 [] ∧
      (∀ c ∈ candList (_normalize "mediano comida incrivel".data) 11 [], d ≤ c.1) ∧
      (∀ c ∈ candList (_normalize "mediano comida incrivel".data) 11 [],
        c.1 = d → c.2 ≤ _score_for_sentence "mediano comida incrivel".data FOOD_KW) :=
  ⟨by decide, by decide, by decide, by decide,
    score_min_distance_tie_to_higher "mediano comida incrivel".data FOOD_KW 11 []
      (by decide) (by decide) (by decide)⟩

/-- C7: if no target keyword occurs as a substring of the normalized
sentence, the sentence scorer returns the neutral score 3. -/
theorem score_neutral_without_keyword (sentence : Str) (targets : List Str)
    (h : ∀ t ∈ targets, isSubstr t (_normalize sentence) = false) :
    _score_for_sentence sentence targets = 3 := by
  unfold _score_for_sentence
  have hany : targets.any (fun t => isSubstr t (_normalize sentence)) = false :=
    List.any_eq_false.mpr (fun t ht => by simp [h t ht])
  rw [hany]
  rfl

/-- Witness for C7: `"ola"` contains no food keyword and scores neutral 3. -/
theorem score_neutral_without_keyword_witness :
    (∀ t ∈ FOOD_KW, isSubstr t (_normalize "ola".data) = false) ∧
    _score_for_sentence "ola".data FOOD_KW = 3 :=
  ⟨by decide, score_neutral_without_keyword "ola".data FOOD_KW (by decide)⟩

lemma cand_snd_mem (s : Str) (tp0 : Nat) (tps : List Nat) :
    ∀ c ∈ candList s tp0 tps, c.2 ∈ ([5, 4, 3, 2, 1] : List Int) := by
  intro c hc
  unfold candList at hc
  rw [List.mem_flatMap] at hc
  obtain ⟨desired, hdes, hc⟩ := hc
  rw [List.mem_flatMap] at hc
  obtain ⟨adj, hadj, hc⟩ := hc
  rw [List.mem_map] at hc
  obtain ⟨apos, hapos, hc⟩ := hc
  rw [← hc]
  exact hdes

lemma score_in_range (sentence : Str) (targets : List Str) :
    1 ≤ _score_for_sentence sentence targets ∧ _score_for_sentence sentence targets ≤ 5 := by
  unfold _score_for_sentence
  split
  · norm_num
  · cases hflat : targets.flatMap (fun t => _positions (_normalize sentence) t) with
    | nil => norm_num
    | cons tp0 tps =>
      dsimp only
      rcases scoreFold_good (candList (_normalize sentence) tp0 tps) with
        ⟨hres, _⟩ | ⟨d, r, hres, hmem, _, _⟩
      · rw [hres]
        norm_num
      · rw [hres]
        have := cand_snd_mem (_normalize sentence) tp0 tps (d, r) hmem
        simp only [List.mem_cons, List.not_mem_nil, or_false] at this
        simp only
        rcases this with h | h | h | h | h <;> omega

/-- Return shape of `analyze_reviews`: the dict with keys `"food_scores"`
and `"customer_service_scores"`. -/
structure AnalyzeResult where
  food_scores : List Int
  customer_service_scores : List Int
deriving DecidableEq

/-- One guarded assignment of the analyzer loop: score the sentence for a
dimension if that dimension has not been found yet and the sentence's
normalized form contains one of its keywords; otherwise keep the current
value. -/
def updateDim (kws : List Str) (sent : Str) (cur : Option Int) : Option Int :=
  if cur.isNone && kws.any (fun k => isSubstr k (_normalize sent)) then
    some (_score_for_sentence sent kws)
  else cur

/-- The forward scan of `analyze_reviews`: update the food and service
slots independently on each sentence and stop once both are found. -/
def analyzeLoop : List Str → Option Int → Option Int → Option Int × Option Int
  | [], ff, fs => (ff, fs)
  | sent :: rest, ff, fs =>
    if (updateDim FOOD_KW sent ff).isSome && (updateDim SERVICE_KW sent fs).isSome then
      (updateDim FOOD_KW sent ff, updateDim SERVICE_KW sent fs)
    else analyzeLoop rest (updateDim FOOD_KW sent ff) (updateDim SERVICE_KW sent fs)

/-- Embeds `analyze_reviews` of `src/main.py`: scan the sentences, score
the first food-relevant and first service-relevant sentence, default each
missing dimension to neutral 3, and return a single score per dimension. -/
def analyze_reviews (review_sentences : List Str) : AnalyzeResult :=
  { food_scores := [(analyzeLoop review_sentences none none).1.getD 3],
    customer_service_scores := [(analyzeLoop review_sentences none none).2.getD 3] }

lemma updateDim_cases (kws : List Str) (sent : Str) (cur : Option Int) :
    updateDim kws sent cur = cur ∨
    updateDim kws sent cur = some (_score_for_sentence sent kws) := by
  unfold updateDim
  split
  · right; rfl
  · left; rfl

lemma updateDim_id (kws : List Str) (sent : Str) (cur : Option Int)
    (h : kws.any (fun k => isSubstr k (_normalize sent)) = false) :
    updateDim kws sent cur = cur := by
  unfold updateDim
  rw [h]
  simp

lemma analyzeLoop_fst (revs : List Str) :
    ∀ ff fs, (analyzeLoop revs ff fs).1 = ff ∨
      ∃ sent, (analyzeLoop revs ff fs).1 = some (_score_for_sentence sent FOOD_KW) := by
  induction revs with
  | nil => intro ff fs; left; rfl
  | cons sent rest ih =>
    intro ff fs
    unfold analyzeLoop
    split
    · rcases updateDim_cases FOOD_KW sent ff with h | h
      · left; simp only [h]
      · right; exact ⟨sent, by simp only [h]⟩
    · rcases ih (updateDim FOOD_KW sent ff) (updateDim SERVICE_KW sent fs) with h | h
      · rcases updateDim_cases FOOD_KW sent ff with h2 | h2
        · left; rw [h, h2]
        · right; exact ⟨sent, by rw [h, h2]⟩
      · right; exact h

lemma analyzeLoop_snd (revs : List Str) :
    ∀ ff fs, (analyzeLoop revs ff fs).2 = fs ∨
      ∃ sent, (analyzeLoop revs ff fs).2 = some (_score_for_sentence sent SERVICE_KW) := by
  induction revs with
  | nil => intro ff fs; left; rfl
  | cons sent rest ih =>
    intro ff fs
    unfold analyzeLoop
    split
    · rcases updateDim_cases SERVICE_KW sent fs with h | h
      · left; simp only [h]
      · right; exact ⟨sent, by simp only [h]⟩
    · rcases ih (updateDim FOOD_KW sent ff) (updateDim SERVICE_KW sent fs) with h | h
      · rcases updateDim_cases SERVICE_KW sent fs with h2 | h2
        · left; rw [h, h2]
        · right; exact ⟨sent, by rw [h, h2]⟩
      · right; exact h

lemma analyzeLoop_fst_id (revs : List Str) :
    ∀ ff fs, (∀ sent ∈ revs, FOOD_KW.any (fun k => isSubstr k (_normalize sent)) = false) →
      (analyzeLoop revs ff fs).1 = ff := by
  induction revs with
  | nil => intro ff fs _; rfl
  | cons sent rest ih =>
    intro ff fs h
    have hupd : updateDim FOOD_KW sent ff = ff :=
      updateDim_id FOOD_KW sent ff (h sent (List.mem_cons_self sent rest))
    unfold analyzeLoop
    rw [hupd]
    split
    · rfl
    · exact ih ff (updateDim SERVICE_KW sent fs)
        (fun s hs => h s (List.mem_cons_of_mem sent hs))

lemma analyzeLoop_snd_id (revs : List Str) :
    ∀ ff fs, (∀ sent ∈ revs, SERVICE_KW.any (fun k => isSubstr k (_normalize sent)) = false) →
      (analyzeLoop revs ff fs).2 = fs := by
  induction revs with
  | nil => intro ff fs _; rfl
  | cons sent rest ih =>
    intro ff fs h
    have hupd : updateDim SERVICE_KW sent fs = fs :=
      updateDim_id SERVICE_KW sent fs (h sent (List.mem_cons_self sent rest))
    unfold analyzeLoop
    rw [hupd]
    split
    · rfl
    · exact ih (updateDim FOOD_KW sent ff) fs
        (fun s hs => h s (List.mem_cons_of_mem sent hs))

/-- C4: for every sentence list, `analyze_reviews` returns exactly one food
score and one service score, each an integer in 1..5, and a dimension whose
keywords occur in no sentence gets the neutral score 3. -/
theorem analyze_reviews_shape (revs : List Str) :
    (analyze_reviews revs).food_scores.length = 1 ∧
    (analyze_reviews revs).customer_service_scores.length = 1 ∧
    (∀ x ∈ (analyze_reviews revs).food_scores, 1 ≤ x ∧ x ≤ 5) ∧
    (∀ x ∈ (analyze_reviews revs).customer_service_scores, 1 ≤ x ∧ x ≤ 5) ∧
    ((∀ sent ∈ revs, FOOD_KW.any (fun k => isSubstr k (_normalize sent)) = false) →
      (analyze_reviews revs).food_scores = [3]) ∧
    ((∀ sent ∈ revs, SERVICE_KW.any (fun k => isSubstr k (_normalize sent)) = false) →
      (analyze_reviews revs).customer_service_scores = [3]) := by
  refine ⟨rfl, rfl, ?_, ?_, ?_, ?_⟩
  · intro x hx
    simp only [analyze_reviews, List.mem_singleton] at hx
    subst hx
    rcases analyzeLoop_fst revs none none with h | ⟨sent, h⟩
    · rw [h]; norm_num
    · rw [h]
      simpa using score_in_range sent FOOD_KW
  · intro x hx
    simp only [analyze_reviews, List.mem_singleton] at hx
    subst hx
    rcases analyzeLoop_snd revs none none with h | ⟨sent, h⟩
    · rw [h]; norm_num
    · rw [h]
      simpa using score_in_range sent SERVICE_KW
  · intro h
    simp only [analyze_reviews]
    rw [analyzeLoop_fst_id revs none none h]
    rfl
  · intro h
    simp only [analyze_reviews]
    rw [analyzeLoop_snd_id revs none none h]
    rfl

/-- Witness for C4: a single sentence with no food and no service keyword
yields `[3]` for both dimensions. -/
theorem analyze_reviews_shape_witness :
    (analyze_reviews ["ola".data]).food_scores = [3] ∧
    (analyze_reviews ["ola".data]).customer_service_scores = [3] :=
  ⟨(analyze_reviews_shape ["ola".data]).2.2.2.2.1 (by decide),
   (analyze_reviews_shape ["ola".data]).2.2.2.2.2 (by decide)⟩

/-- Python `str.isspace` characters occurring in the ASCII range the corpus
uses (`str.strip` with no argument trims these). -/
def isPySpace (c : Char) : Bool :=
  c == ' ' || c == '\t' || c == '\n' || c == '\x0d' || c == '\x0b' || c == '\x0c'

/-- Python `s.rstrip()` (trailing whitespace removed). -/
def pyRstrip (l : Str) : Str := (l.reverse.dropWhile isPySpace).reverse

/-- Python `s.strip()` (surrounding whitespace removed). -/
def pyStrip (l : Str) : Str := pyRstrip (l.dropWhile isPySpace)

/-- Python `s.rstrip(chars)` for an explicit character set. -/
def pyRstripSet (l : Str) (chars : List Char) : Str :=
  (l.reverse.dropWhile (fun c => chars.contains c)).reverse

/-- The sentence terminator characters `".!?"`. -/
def terminators : List Char := ['.', '!', '?']

/-- The character scan of `fetch_restaurant_data`: accumulate characters
into a buffer; at each terminator, strip the buffer and emit it when
non-empty; at end of input, emit any non-blank trailing buffer. -/
def segmentAux (acc : Str) : Str → List Str
  | [] => if pyStrip acc = [] then [] else [pyStrip acc]
  | ch :: rest =>
    if terminators.contains ch then
      (if pyStrip (acc ++ [ch]) = [] then [] else [pyStrip (acc ++ [ch])]) ++ segmentAux [] rest
    else segmentAux (acc ++ [ch]) rest

/-- The final list comprehension of `fetch_restaurant_data`: keep the
fragments whose whitespace-strip is non-empty and map each to its strip
with trailing terminator punctuation removed. -/
def cleanSentences (raw : Str) : List Str :=
  ((segmentAux [] raw).filter (fun s => !(pyStrip s).isEmpty)).map
    (fun s => pyRstripSet (pyStrip s) terminators)

/-- The four name-matching rules of `fetch_restaurant_data` on the
normalized query `q` and normalized key `n`: equality, substring in either
direction, and whitespace-removed containment. -/
def match4 (q n : Str) : Bool :=
  q == n || isSubstr q n || isSubstr n q ||
    isSubstr (q.filter (fun c => !(c == ' '))) (n.filter (fun c => !(c == ' ')))

/-- Embeds `fetch_restaurant_data` of `src/main.py`, with the loaded corpus
dict (`restaurantes.txt`, in insertion order) passed explicitly: the first
key matching one of the four rules is chosen (with a fallback loop that
retries the substring rule alone), its review is split into cleaned
sentences; an unmatched query yields the query paired with no sentences. -/
def fetch_restaurant_data (reviews : List (Str × Str)) (restaurant_name : Str) :
    Str × List Str :=
  match reviews.find? (fun kv => match4 (_normalize restaurant_name) (_normalize kv.1)) with
  | some kv => (kv.1, cleanSentences kv.2)
  | none =>
    match reviews.find? (fun kv => isSubstr (_normalize restaurant_name) (_normalize kv.1)) with
    | some kv => (kv.1, cleanSentences kv.2)
    | none => (restaurant_name, [])

/-- C6: if no corpus key satisfies any of the four matching rules,
`fetch_restaurant_data` returns the original query name paired with an
empty sentence list (a valid no-data result, not an error). -/
theorem fetch_no_match_returns_query (reviews : List (Str × Str)) (name : Str)
    (h : ∀ kv ∈ reviews, match4 (_normalize name) (_normalize kv.1) = false) :
    fetch_restaurant_data reviews name = (name, []) := by
  have h1 : reviews.find? (fun kv => match4 (_normalize name) (_normalize kv.1)) = none :=
    List.find?_eq_none.mpr (fun kv hkv => by simp [h kv hkv])
  have h2 : reviews.find? (fun kv => isSubstr (_normalize name) (_normalize kv.1)) = none := by
    apply List.find?_eq_none.mpr
    intro kv hkv
    have hm := h kv hkv
    unfold match4 at hm
    rw [Bool.or_eq_false_iff, Bool.or_eq_false_iff, Bool.or_eq_false_iff] at hm
    simp [hm.1.1.2]
  unfold fetch_restaurant_data
  rw [h1, h2]

/-- Witness for C6: the query `"zzz"` matches no rule against the corpus
key `"Bob"` and comes back unchanged with an empty sentence list. -/
theorem fetch_no_match_returns_query_witness :
    (∀ kv ∈ [("Bob".data, "Comida boa.".data)],
      match4 (_normalize "zzz".data) (_normalize kv.1) = false) ∧
    fetch_restaurant_data [("Bob".data, "Comida boa.".data)] "zzz".data =
      ("zzz".data, []) :=
  ⟨by decide,
    fetch_no_match_returns_query [("Bob".data, "Comida boa.".data)] "zzz".data (by decide)⟩

lemma dropWhile_head_false (p : Char → Bool) (l : Str) (c : Char) (rest : Str)
    (h : l.dropWhile p = c :: rest) : p c = false := by
  induction l with
  | nil => simp at h
  | cons a l ih =>
    rw [List.dropWhile_cons] at h
    by_cases hp : p a = true
    · rw [if_pos hp] at h
      exact ih h
    · rw [if_neg hp] at h
      rw [List.cons.injEq] at h
      rw [← h.1]
      exact Bool.not_eq_true _ |>.mp hp

lemma pyRstrip_front (l : Str) : pyRstrip l <+: l := by
  rw [← List.reverse_suffix]
  unfold pyRstrip
  rw [List.reverse_reverse]
  exact List.dropWhile_suffix _

lemma pyRstripSet_front (l : Str) (cs : List Char) : pyRstripSet l cs <+: l := by
  rw [← List.reverse_suffix]
  unfold pyRstripSet
  rw [List.reverse_reverse]
  exact List.dropWhile_suffix _

lemma pyStrip_head_not_space (l : Str) (c : Char) (rest : Str)
    (h : pyStrip l = c :: rest) : isPySpace c = false := by
  have hpre : pyStrip l <+: l.dropWhile isPySpace := pyRstrip_front _
  rw [h] at hpre
  obtain ⟨t, ht⟩ := hpre
  exact dropWhile_head_false isPySpace l c (rest ++ t) (by rw [← ht]; simp)

lemma cleanSentences_elem (raw : Str) (e : Str) (he : e ∈ cleanSentences raw) :
    e = [] ∨ ∃ c rest, e = c :: rest ∧ isPySpace c = false := by
  unfold cleanSentences at he
  rw [List.mem_map] at he
  obtain ⟨s, hs, he⟩ := he
  rw [List.mem_filter] at hs
  obtain ⟨_, hsne⟩ := hs
  cases hstrip : pyStrip s with
  | nil => rw [hstrip] at hsne; simp at hsne
  | cons c rest0 =>
    cases he2 : e with
    | nil => exact Or.inl rfl
    | cons c2 rest2 =>
      rw [he2] at he
      right
      have hpre : (c2 :: rest2 : Str) <+: pyStrip s := by
        rw [← he]
        exact pyRstripSet_front _ _
      rw [hstrip] at hpre
      obtain ⟨t, ht⟩ := hpre
      have hc : c2 = c := by
        have := congrArg List.head? ht
        simpa using this
      refine ⟨c2, rest2, rfl, ?_⟩
      rw [hc]
      exact pyStrip_head_not_space s c rest0 hstrip

/-- C3 (amended): every sentence in the list returned by
`fetch_restaurant_data` is either the empty string or starts with a
non-whitespace character; the claim that no element is empty fails, because
the blank-fragment filter runs before the trailing-punctuation strip. -/
theorem fetch_sentences_empty_or_nonblank (reviews : List (Str × Str)) (name : Str)
    (e : Str) (he : e ∈ (fetch_restaurant_data reviews name).2) :
    e = [] ∨ ∃ c rest, e = c :: rest ∧ isPySpace c = false := by
  unfold fetch_restaurant_data at he
  cases h1 : reviews.find? (fun kv => match4 (_normalize name) (_normalize kv.1)) with
  | some kv =>
    rw [h1] at he
    exact cleanSentences_elem kv.2 e he
  | none =>
    rw [h1] at he
    cases h2 : reviews.find? (fun kv => isSubstr (_normalize name) (_normalize kv.1)) with
    | some kv =>
      rw [h2] at he
      exact cleanSentences_elem kv.2 e he
    | none =>
      rw [h2] at he
      simp at he

/-- Witness for C3 (amended) at a concrete corpus: the entry
`("R", "Bom.")` yields the sentence `"Bom"`, which is non-empty and starts
with a non-whitespace character. -/
theorem fetch_sentences_empty_or_nonblank_witness :
    ("Bom".data ∈ (fetch_restaurant_data [("R".data, "Bom.".data)] "R".data).2) ∧
    ("Bom".data = ([] : Str) ∨
      ∃ c rest, "Bom".data = c :: rest ∧ isPySpace c = false) :=
  ⟨by decide,
    fetch_sentences_empty_or_nonblank [("R".data, "Bom.".data)] "R".data "Bom".data
      (by decide)⟩

/-- C3 counterexample: the reachable corpus entry with review text `"!!"`
(line `R. !!` of the corpus file) makes `fetch_restaurant_data` return the
list `["", ""]`, so the returned sentence list can contain empty strings. -/
theorem fetch_can_return_empty_sentence :
    (fetch_restaurant_data [("R".data, "!!".data)] "R".data).2 = [[], []] ∧
    ([] : Str) ∈ (fetch_restaurant_data [("R".data, "!!".data)] "R".data).2 :=
  ⟨by decide, by decide⟩

/-- Rounding to 3 decimal places, modelling Python's `float(f"{x:.3f}")`
over the reals.  The value rounded below is 5366.56... in thousandths —
far from a .5 tie, so the round-half-even of float formatting agrees with
`round`, and double-precision error (below 1e-10 thousandths here) cannot
move the result across the rounding boundary. -/
noncomputable def round3 (x : ℝ) : ℝ := (round (x * 1000) : ℤ) / 1000

/-- Embeds `calculate_overall_score` of `src/main.py`, floats modelled as
reals: an empty score list on either side gives 0.000; otherwise the first
`N = min(len(food), len(service))` pairs contribute
`|food[i]| * sqrt(service[i])` to `total`, and the result is
`total * 10 / (N * sqrt 125)` rounded to 3 decimals, paired with the name. -/
noncomputable def calculate_overall_score (restaurant_name : Str)
    (food_scores customer_service_scores : List Int) : Str × ℝ :=
  if food_scores = [] ∨ customer_service_scores = [] then (restaurant_name, 0)
  else
    (restaurant_name,
      round3 ((((List.range (min food_scores.length customer_service_scores.length)).map
          (fun i => |((food_scores.getD i 0 : Int) : ℝ)| *
            Real.sqrt ((customer_service_scores.getD i 0 : Int) : ℝ))).sum) * 10 /
        ((min food_scores.length customer_service_scores.length : ℝ) * Real.sqrt 125)))

lemma sqrt125_bounds : (11.18 : ℝ) < Real.sqrt 125 ∧ Real.sqrt 125 < 11.1804 := by
  constructor
  · rw [Real.lt_sqrt (by norm_num)]
    norm_num
  · rw [Real.sqrt_lt' (by norm_num)]
    norm_num

lemma round_60000_div_sqrt125 : round ((60 : ℝ) / Real.sqrt 125 * 1000) = 5367 := by
  have hb := sqrt125_bounds
  have hpos : (0 : ℝ) < Real.sqrt 125 := by linarith [hb.1]
  have hlo : (5366.5 : ℝ) < 60 / Real.sqrt 125 * 1000 := by
    rw [div_mul_eq_mul_div, lt_div_iff₀ hpos]
    nlinarith [hb.2]
  have hhi : 60 / Real.sqrt 125 * 1000 < (5367.5 : ℝ) := by
    rw [div_mul_eq_mul_div, div_lt_iff₀ hpos]
    nlinarith [hb.1]
  rw [round_eq, Int.floor_eq_iff]
  constructor
  · push_cast
    linarith
  · push_cast
    linarith

lemma overall_score_exemplo :
    (calculate_overall_score "Exemplo".data [3] [4]).2 = 5367 / 1000 := by
  have hs4 : Real.sqrt ((4 : ℤ) : ℝ) = 2 := by
    rw [show ((4 : ℤ) : ℝ) = 2 ^ 2 by norm_num, Real.sqrt_sq (by norm_num)]
  have hrange : List.range 1 = [0] := rfl
  unfold calculate_overall_score
  rw [if_neg (by simp)]
  simp only [List.length_cons, List.length_nil, Nat.reduceAdd, min_self, hrange,
    List.map_cons, List.map_nil, List.getD_cons_zero, List.sum_cons, List.sum_nil, hs4]
  have harg : (|((3 : ℤ) : ℝ)| * 2 + 0) * 10 / (((1 : ℕ) : ℝ) * Real.sqrt 125) =
      60 / Real.sqrt 125 := by
    norm_num
  rw [harg]
  unfold round3
  rw [round_60000_div_sqrt125]
  norm_num

/-- C1 counterexample: on the example inputs ("Exemplo", [3], [4]) the
aggregator does not return 5.366 — the formula value 60/sqrt(125) =
5.36656... rounds to 5.367, so the spec's 5.366 is a truncation, not the
rounded value the claim itself describes. -/
theorem overall_score_exemplo_not_5366 :
    (calculate_overall_score "Exemplo".data [3] [4]).2 ≠ 5366 / 1000 := by
  rw [overall_score_exemplo]
  norm_num

/-- C1 (amended): for the inputs restaurant_name="Exemplo", food=[3],
service=[4] the aggregator returns {"Exemplo": 5.367} — the value
total*10/(N*sqrt 125) with total = |3|*sqrt 4 and N = 1, rounded (not
truncated) to exactly 3 decimal places. -/
theorem overall_score_exemplo_5367 :
    calculate_overall_score "Exemplo".data [3] [4] = ("Exemplo".data, 5367 / 1000) := by
  have h1 : (calculate_overall_score "Exemplo".data [3] [4]).1 = "Exemplo".data := by
    unfold calculate_overall_score
    rw [if_neg (by simp)]
  exact Prod.ext h1 overall_score_exemplo
